import Mathlib

/-!
Verification of the unbalanced binary search tree in `include/bst.hpp`.

The C++ class `BST<T>` stores elements in heap-allocated `TreeNode`s with
raw owning pointers; a `TreeNode*` is either `nullptr` or a node carrying
`data`, `left` and `right`.  We model a `TreeNode*` as the inductive type
`Tree α`, and the mutating member functions (which act through a
`TreeNode*&` reference) as state-passing functions returning the boolean
result paired with the updated subtree.  The element type `T` is only used
through `operator<`; we model it as a type with a linear order, a lawful
instance of the strict weak ordering the source requires.
-/

set_option maxHeartbeats 1000000

namespace BSTSpec

/-- A `TreeNode*`: `nil` is `nullptr`; `node data left right` mirrors the
`TreeNode` fields `data`, `left`, `right` of `bst.hpp`. -/
inductive Tree (α : Type) where
  | nil : Tree α
  | node (data : α) (left : Tree α) (right : Tree α) : Tree α

deriving instance DecidableEq for Tree

variable {α : Type}

/-- `BST<T>::insert(TreeNode*& node, const T& value)` (bst.hpp lines 255-268):
at a null slot, allocate a leaf and succeed; descend left when
`value < node->data`, right when `node->data < value`; otherwise the value
already exists and the call fails. Returns the boolean result together with
the updated subtree (the C++ mutates through the reference). -/
def insert [LinearOrder α] : Tree α → α → Bool × Tree α
  | Tree.nil, value => (true, Tree.node value Tree.nil Tree.nil)
  | Tree.node d l r, value =>
    if value < d then
      let p := insert l value
      (p.1, Tree.node d p.2 r)
    else if d < value then
      let p := insert r value
      (p.1, Tree.node d l p.2)
    else
      (false, Tree.node d l r)

/-- `BST<T>::contain(const TreeNode* const node, const T& value)`
(bst.hpp lines 271-283): three-way descent by `<`; found when neither
comparison holds. -/
def contain [LinearOrder α] : Tree α → α → Bool
  | Tree.nil, _ => false
  | Tree.node d l r, value =>
    if value < d then contain l value
    else if d < value then contain r value
    else true

/-- `BST<T>::TreeNode::min()` (bst.hpp lines 220-226): walk left until the
left child is null, return that node.  On `nil` (never reached in the
source, where `min` is a member of a live node) we return `nil`. -/
def minNode : Tree α → Tree α
  | Tree.nil => Tree.nil
  | Tree.node d Tree.nil r => Tree.node d Tree.nil r
  | Tree.node _ (Tree.node d' l' r') _ => minNode (Tree.node d' l' r')

/-- The `data` of `(node d l _).min()`: `d` when `l` is null, else the
minimum of `l`.  Agrees with `minNode` (see `minNode_shape`). -/
def minFrom (d : α) : Tree α → α
  | Tree.nil => d
  | Tree.node d' l' _ => minFrom d' l'

/-- `BST<T>::remove(TreeNode*& node, const T& value)` (bst.hpp lines
286-319): three-way descent; on the matched node, if the left child is null
splice in the right child; else if the right child is null splice in the
left child; else (two children) copy the data of the right subtree's
minimum into the node and recursively remove that value from the right
subtree, returning `true` regardless of the inner result. -/
def remove [LinearOrder α] : Tree α → α → Bool × Tree α
  | Tree.nil, _ => (false, Tree.nil)
  | Tree.node d l r, value =>
    if value < d then
      let p := remove l value
      (p.1, Tree.node d p.2 r)
    else if d < value then
      let p := remove r value
      (p.1, Tree.node d l p.2)
    else
      match l, r with
      | Tree.nil, _ => (true, r)
      | Tree.node dl ll rl, Tree.nil => (true, Tree.node dl ll rl)
      | Tree.node dl ll rl, Tree.node dr lr rr =>
        let s := minFrom dr lr
        let p := remove (Tree.node dr lr rr) s
        (true, Tree.node s (Tree.node dl ll rl) p.2)

/-- `BST<T>::in_order` (bst.hpp lines 344-353): left subtree, node, right
subtree; the C++ appends into a result vector, modelled as list append. -/
def in_order : Tree α → List α
  | Tree.nil => []
  | Tree.node d l r => in_order l ++ d :: in_order r

/-- `BST<T>::pre_order` (bst.hpp lines 355-364): node, left subtree, right
subtree. -/
def pre_order : Tree α → List α
  | Tree.nil => []
  | Tree.node d l r => d :: (pre_order l ++ pre_order r)

/-- `BST<T>::post_order` (bst.hpp lines 366-375): left subtree, right
subtree, node. -/
def post_order : Tree α → List α
  | Tree.nil => []
  | Tree.node d l r => post_order l ++ post_order r ++ [d]

/-- `BST<T>::find_node(TreeNode* node, const T& value)` (bst.hpp lines
114-126): same descent as `contain`, returning the matched node (modelled
as the subtree rooted there) or `none` for `nullptr`. -/
def find_node [LinearOrder α] : Tree α → α → Option (Tree α)
  | Tree.nil, _ => none
  | Tree.node d l r, value =>
    if value < d then find_node l value
    else if d < value then find_node r value
    else some (Tree.node d l r)

/-- Boolean "every stored value satisfies `p`". -/
def allB (p : α → Bool) : Tree α → Bool
  | Tree.nil => true
  | Tree.node d l r => p d && allB p l && allB p r

/-- The BST invariant of the spec (section 3): at every node, every value in
the left subtree is `<` the node's value and the node's value is `<` every
value in the right subtree. -/
def isBST [LinearOrder α] : Tree α → Bool
  | Tree.nil => true
  | Tree.node d l r =>
    allB (fun x => decide (x < d)) l && allB (fun x => decide (d < x)) r
      && isBST l && isBST r

/-- One public mutating operation of the tree. -/
inductive Op (α : Type) where
  | ins (v : α)
  | del (v : α)

/-- Run a sequence of `insert`/`remove` calls against the tree, as a client
of the public API would. -/
def applyOps [LinearOrder α] : Tree α → List (Op α) → Tree α
  | t, [] => t
  | t, Op.ins v :: ops => applyOps (insert t v).2 ops
  | t, Op.del v :: ops => applyOps (remove t v).2 ops

/-- Fold `insert` over a list of values, as the concrete scenarios of the
spec do. -/
def insertList [LinearOrder α] : Tree α → List α → Tree α
  | t, [] => t
  | t, v :: vs => insertList (insert t v).2 vs

/-! ### Basic lemmas about the embedding -/

theorem allB_eq_true (p : α → Bool) (t : Tree α) :
    allB p t = true ↔ ∀ x ∈ in_order t, p x = true := by
  induction t with
  | nil => simp [allB, in_order]
  | node d l r ihl ihr =>
    simp only [allB, in_order, Bool.and_eq_true, ihl, ihr, List.mem_append,
      List.mem_cons, or_imp, forall_and, forall_eq]
    tauto

theorem in_order_ne_nil (d : α) (l r : Tree α) :
    in_order (Tree.node d l r) ≠ [] := by
  simp [in_order]

theorem head?_in_order_append (l : Tree α) (d : α) (xs : List α) :
    (in_order l ++ d :: xs).head? = some (minFrom d l) := by
  induction l generalizing d xs with
  | nil => simp [in_order, minFrom]
  | node d' l' r' ihl ihr =>
    have h : in_order (Tree.node d' l' r') ++ d :: xs
        = in_order l' ++ d' :: (in_order r' ++ d :: xs) := by
      simp [in_order]
    rw [h, ihl d' (in_order r' ++ d :: xs)]
    simp [minFrom]

theorem head?_in_order (d : α) (l r : Tree α) :
    (in_order (Tree.node d l r)).head? = some (minFrom d l) := by
  simpa [in_order] using head?_in_order_append l d (in_order r)

theorem minNode_shape (d : α) (l r : Tree α) :
    ∃ rr, minNode (Tree.node d l r) = Tree.node (minFrom d l) Tree.nil rr := by
  induction l generalizing d r with
  | nil => exact ⟨r, rfl⟩
  | node d' l' r' ihl ihr =>
    simpa [minNode, minFrom] using ihl d' r'

theorem isBST_node_iff [LinearOrder α] (d : α) (l r : Tree α) :
    isBST (Tree.node d l r) = true ↔
      (∀ x ∈ in_order l, x < d) ∧ (∀ x ∈ in_order r, d < x)
        ∧ isBST l = true ∧ isBST r = true := by
  simp only [isBST, Bool.and_eq_true, allB_eq_true, decide_eq_true_eq]
  tauto

theorem isBST_iff_pairwise [LinearOrder α] (t : Tree α) :
    isBST t = true ↔ List.Pairwise (· < ·) (in_order t) := by
  induction t with
  | nil => simp [isBST, in_order]
  | node d l r ihl ihr =>
    rw [isBST_node_iff, ihl, ihr]
    show _ ↔ List.Pairwise (· < ·) (in_order l ++ d :: in_order r)
    rw [List.pairwise_append]
    simp only [List.pairwise_cons, List.mem_cons]
    constructor
    · rintro ⟨hld, hrd, hl, hr⟩
      refine ⟨hl, ⟨hrd, hr⟩, ?_⟩
      rintro a ha b (rfl | hb)
      · exact hld a ha
      · exact lt_trans (hld a ha) (hrd b hb)
    · rintro ⟨hl, ⟨hdr, hr⟩, hcross⟩
      exact ⟨fun x hx => hcross x hx d (Or.inl rfl), hdr, hl, hr⟩

/-! Unfolding equations for `remove` (the nested match makes the
automatically generated equations awkward for `simp`). -/

theorem remove_lt [LinearOrder α] (d v : α) (l r : Tree α) (h : v < d) :
    remove (Tree.node d l r) v = ((remove l v).1, Tree.node d (remove l v).2 r) := by
  rw [remove.eq_def]
  simp [h]

theorem remove_gt [LinearOrder α] (d v : α) (l r : Tree α) (h : d < v) :
    remove (Tree.node d l r) v = ((remove r v).1, Tree.node d l (remove r v).2) := by
  rw [remove.eq_def]
  simp [h, asymm h]

theorem remove_self_nil_left [LinearOrder α] (d : α) (r : Tree α) :
    remove (Tree.node d Tree.nil r) d = (true, r) := by
  rw [remove.eq_def]
  simp

theorem remove_self_nil_right [LinearOrder α] (d dl : α) (ll rl : Tree α) :
    remove (Tree.node d (Tree.node dl ll rl) Tree.nil) d
      = (true, Tree.node dl ll rl) := by
  rw [remove.eq_def]
  simp

theorem remove_self_two [LinearOrder α] (d dl dr : α) (ll rl lr rr : Tree α) :
    remove (Tree.node d (Tree.node dl ll rl) (Tree.node dr lr rr)) d
      = (true, Tree.node (minFrom dr lr) (Tree.node dl ll rl)
          (remove (Tree.node dr lr rr) (minFrom dr lr)).2) := by
  rw [remove.eq_def]
  simp

theorem contain_iff_mem [LinearOrder α] {t : Tree α} (hb : isBST t = true) (v : α) :
    contain t v = true ↔ v ∈ in_order t := by
  induction t with
  | nil => simp [contain, in_order]
  | node d l r ihl ihr =>
    rw [isBST_node_iff] at hb
    obtain ⟨hld, hrd, hl, hr⟩ := hb
    by_cases h1 : v < d
    · rw [show contain (Tree.node d l r) v = contain l v by simp [contain, h1]]
      rw [ihl hl]
      simp only [in_order, List.mem_append, List.mem_cons]
      constructor
      · exact Or.inl
      · rintro (h | rfl | h)
        · exact h
        · exact absurd h1 (lt_irrefl _)
        · exact absurd (lt_trans h1 (hrd v h)) (lt_irrefl _)
    · by_cases h2 : d < v
      · rw [show contain (Tree.node d l r) v = contain r v by simp [contain, h1, h2]]
        rw [ihr hr]
        simp only [in_order, List.mem_append, List.mem_cons]
        constructor
        · exact fun h => Or.inr (Or.inr h)
        · rintro (h | rfl | h)
          · exact absurd (lt_trans (hld v h) h2) (lt_irrefl _)
          · exact absurd h2 (lt_irrefl _)
          · exact h
      · have hvd : v = d := le_antisymm (not_lt.mp h2) (not_lt.mp h1)
        rw [show contain (Tree.node d l r) v = true by simp [contain, h1, h2]]
        simp [in_order, hvd]

theorem insert_of_contain [LinearOrder α] {t : Tree α} {v : α}
    (hc : contain t v = true) : insert t v = (false, t) := by
  induction t with
  | nil => simp [contain] at hc
  | node d l r ihl ihr =>
    by_cases h1 : v < d
    · have hc' : contain l v = true := by simpa [contain, h1] using hc
      simp [insert, h1, ihl hc']
    · by_cases h2 : d < v
      · have hc' : contain r v = true := by simpa [contain, h1, h2] using hc
        simp [insert, h1, h2, ihr hc']
      · simp [insert, h1, h2]

theorem insert_fst_of_not_contain [LinearOrder α] {t : Tree α} {v : α}
    (hc : contain t v = false) : (insert t v).1 = true := by
  induction t with
  | nil => simp [insert]
  | node d l r ihl ihr =>
    by_cases h1 : v < d
    · have := ihl (by simpa [contain, h1] using hc)
      simp [insert, h1, this]
    · by_cases h2 : d < v
      · have := ihr (by simpa [contain, h1, h2] using hc)
        simp [insert, h1, h2, this]
      · simp [contain, h1, h2] at hc

theorem in_order_insert_perm [LinearOrder α] {t : Tree α} {v : α}
    (hc : contain t v = false) :
    List.Perm (in_order (insert t v).2) (v :: in_order t) := by
  induction t with
  | nil => simp [insert, in_order]
  | node d l r ihl ihr =>
    by_cases h1 : v < d
    · have hp := ihl (by simpa [contain, h1] using hc)
      have he : (insert (Tree.node d l r) v).2 = Tree.node d (insert l v).2 r := by
        simp [insert, h1]
      rw [he]
      show List.Perm (in_order (insert l v).2 ++ d :: in_order r)
        (v :: (in_order l ++ d :: in_order r))
      exact hp.append_right _
    · by_cases h2 : d < v
      · have hp := ihr (by simpa [contain, h1, h2] using hc)
        have he : (insert (Tree.node d l r) v).2 = Tree.node d l (insert r v).2 := by
          simp [insert, h1, h2]
        rw [he]
        show List.Perm (in_order l ++ d :: in_order (insert r v).2)
          (v :: (in_order l ++ d :: in_order r))
        have s2 : List.Perm (in_order l ++ d :: in_order (insert r v).2)
            (in_order l ++ d :: v :: in_order r) :=
          List.Perm.append_left _ (List.Perm.cons d hp)
        have s3 : List.Perm ((in_order l ++ [d]) ++ v :: in_order r)
            (v :: ((in_order l ++ [d]) ++ in_order r)) := List.perm_middle
        have e1 : (in_order l ++ [d]) ++ v :: in_order r
            = in_order l ++ d :: v :: in_order r := by simp
        have e2 : (in_order l ++ [d]) ++ in_order r
            = in_order l ++ d :: in_order r := by simp
        rw [e1, e2] at s3
        exact s2.trans s3
      · simp [contain, h1, h2] at hc

theorem allB_insert [LinearOrder α] {p : α → Bool} {t : Tree α} {v : α}
    (ht : allB p t = true) (hv : p v = true) : allB p (insert t v).2 = true := by
  induction t with
  | nil => simp [insert, allB, hv]
  | node d l r ihl ihr =>
    simp only [allB, Bool.and_eq_true] at ht
    obtain ⟨⟨hd, hl⟩, hr⟩ := ht
    by_cases h1 : v < d
    · simp [insert, h1, allB, hd, ihl hl, hr]
    · by_cases h2 : d < v
      · simp [insert, h1, h2, allB, hd, hl, ihr hr]
      · simp [insert, h1, h2, allB, hd, hl, hr]

theorem isBST_insert [LinearOrder α] {t : Tree α} (hb : isBST t = true) (v : α) :
    isBST (insert t v).2 = true := by
  induction t with
  | nil => simp [insert, isBST, allB]
  | node d l r ihl ihr =>
    simp only [isBST, Bool.and_eq_true] at hb
    obtain ⟨⟨⟨hld, hrd⟩, hl⟩, hr⟩ := hb
    by_cases h1 : v < d
    · have ha : allB (fun x => decide (x < d)) (insert l v).2 = true :=
        allB_insert hld (by simp [h1])
      simp [insert, h1, isBST, ha, hrd, ihl hl, hr]
    · by_cases h2 : d < v
      · have ha : allB (fun x => decide (d < x)) (insert r v).2 = true :=
          allB_insert hrd (by simp [h2])
        simp [insert, h1, h2, isBST, hld, ha, hl, ihr hr]
      · simp [insert, h1, h2, isBST, hld, hrd, hl, hr]

theorem remove_of_not_contain [LinearOrder α] {t : Tree α} {v : α}
    (hc : contain t v = false) : remove t v = (false, t) := by
  induction t with
  | nil => rfl
  | node d l r ihl ihr =>
    by_cases h1 : v < d
    · have := ihl (by simpa [contain, h1] using hc)
      rw [remove_lt d v l r h1, this]
    · by_cases h2 : d < v
      · have := ihr (by simpa [contain, h1, h2] using hc)
        rw [remove_gt d v l r h2, this]
      · simp [contain, h1, h2] at hc

theorem remove_fst_of_contain [LinearOrder α] {t : Tree α} {v : α}
    (hc : contain t v = true) : (remove t v).1 = true := by
  induction t with
  | nil => simp [contain] at hc
  | node d l r ihl ihr =>
    by_cases h1 : v < d
    · have := ihl (by simpa [contain, h1] using hc)
      rw [remove_lt d v l r h1]
      exact this
    · by_cases h2 : d < v
      · have := ihr (by simpa [contain, h1, h2] using hc)
        rw [remove_gt d v l r h2]
        exact this
      · have hvd : v = d := le_antisymm (not_lt.mp h2) (not_lt.mp h1)
        subst hvd
        cases l with
        | nil => rw [remove_self_nil_left]
        | node dl ll rl =>
          cases r with
          | nil => rw [remove_self_nil_right]
          | node dr lr rr => rw [remove_self_two]

theorem filter_ne_cons_of_ne [DecidableEq α] {d v : α} (h : d ≠ v) (xs : List α) :
    List.filter (fun x => decide (x ≠ v)) (d :: xs)
      = d :: List.filter (fun x => decide (x ≠ v)) xs := by
  simp [List.filter_cons, h]

theorem filter_ne_cons_self [DecidableEq α] (v : α) (xs : List α) :
    List.filter (fun x => decide (x ≠ v)) (v :: xs)
      = List.filter (fun x => decide (x ≠ v)) xs := by
  simp [List.filter_cons]

/-- The central fact about `remove`: on a BST it deletes exactly the
comparison-equal occurrences from the in-order listing, keeping everything
else in place (in particular it is the identity on the listing when the
value is absent). -/
theorem in_order_remove [LinearOrder α] :
    ∀ (t : Tree α), isBST t = true → ∀ (v : α),
      in_order (remove t v).2 = (in_order t).filter (fun x => decide (x ≠ v)) := by
  intro t
  induction t with
  | nil => intro _ v; rfl
  | node d l r ihl ihr =>
    intro hb v
    rw [isBST_node_iff] at hb
    obtain ⟨hld, hrd, hl, hr⟩ := hb
    by_cases h1 : v < d
    · rw [remove_lt d v l r h1]
      show in_order (remove l v).2 ++ d :: in_order r
          = List.filter (fun x => decide (x ≠ v)) (in_order l ++ d :: in_order r)
      have hkeep : List.filter (fun x => decide (x ≠ v)) (d :: in_order r)
          = d :: in_order r := by
        rw [List.filter_eq_self]
        intro a ha
        simp only [decide_eq_true_eq]
        rcases List.mem_cons.mp ha with rfl | ha
        · exact ne_of_gt h1
        · exact ne_of_gt (lt_trans h1 (hrd a ha))
      rw [List.filter_append, hkeep, ihl hl v]
    · by_cases h2 : d < v
      · rw [remove_gt d v l r h2]
        show in_order l ++ d :: in_order (remove r v).2
            = List.filter (fun x => decide (x ≠ v)) (in_order l ++ d :: in_order r)
        have hkeepl : List.filter (fun x => decide (x ≠ v)) (in_order l)
            = in_order l := by
          rw [List.filter_eq_self]
          intro a ha
          simp only [decide_eq_true_eq]
          exact ne_of_lt (lt_trans (hld a ha) h2)
        rw [List.filter_append, hkeepl, filter_ne_cons_of_ne (ne_of_lt h2), ihr hr v]
      · have hvd : v = d := le_antisymm (not_lt.mp h2) (not_lt.mp h1)
        subst hvd
        cases l with
        | nil =>
          rw [remove_self_nil_left]
          show in_order r
              = List.filter (fun x => decide (x ≠ v)) ([] ++ v :: in_order r)
          rw [List.nil_append, filter_ne_cons_self]
          symm
          rw [List.filter_eq_self]
          intro a ha
          simp only [decide_eq_true_eq]
          exact ne_of_gt (hrd a ha)
        | node dl ll rl =>
          cases r with
          | nil =>
            rw [remove_self_nil_right]
            show in_order (Tree.node dl ll rl)
                = List.filter (fun x => decide (x ≠ v))
                    (in_order (Tree.node dl ll rl) ++ v :: [])
            rw [List.filter_append, filter_ne_cons_self, List.filter_nil,
              List.append_nil]
            symm
            rw [List.filter_eq_self]
            intro a ha
            simp only [decide_eq_true_eq]
            exact ne_of_lt (hld a ha)
          | node dr lr rr =>
            rw [remove_self_two]
            show in_order (Tree.node dl ll rl)
                  ++ minFrom dr lr
                    :: in_order (remove (Tree.node dr lr rr) (minFrom dr lr)).2
                = List.filter (fun x => decide (x ≠ v))
                    (in_order (Tree.node dl ll rl)
                      ++ v :: in_order (Tree.node dr lr rr))
            obtain ⟨tl, htl⟩ :
                ∃ tl, in_order (Tree.node dr lr rr) = minFrom dr lr :: tl := by
              cases hio : in_order (Tree.node dr lr rr) with
              | nil => exact absurd hio (in_order_ne_nil dr lr rr)
              | cons a tl =>
                have hh := head?_in_order dr lr rr
                rw [hio] at hh
                simp only [List.head?_cons, Option.some.injEq] at hh
                exact ⟨tl, by rw [hh]⟩
            have hsort : List.Pairwise (· < ·) (in_order (Tree.node dr lr rr)) :=
              (isBST_iff_pairwise _).mp hr
            rw [htl] at hsort
            have htlgt : ∀ x ∈ tl, minFrom dr lr < x :=
              (List.pairwise_cons.mp hsort).1
            have hir := ihr hr (minFrom dr lr)
            rw [htl, filter_ne_cons_self] at hir
            have htlself : List.filter (fun x => decide (x ≠ minFrom dr lr)) tl
                = tl := by
              rw [List.filter_eq_self]
              intro a ha
              simp only [decide_eq_true_eq]
              exact ne_of_gt (htlgt a ha)
            rw [htlself] at hir
            have h1l : List.filter (fun x => decide (x ≠ v))
                (in_order (Tree.node dl ll rl)) = in_order (Tree.node dl ll rl) := by
              rw [List.filter_eq_self]
              intro a ha
              simp only [decide_eq_true_eq]
              exact ne_of_lt (hld a ha)
            have h1r : List.filter (fun x => decide (x ≠ v))
                (in_order (Tree.node dr lr rr)) = in_order (Tree.node dr lr rr) := by
              rw [List.filter_eq_self]
              intro a ha
              simp only [decide_eq_true_eq]
              exact ne_of_gt (hrd a ha)
            rw [hir, List.filter_append, filter_ne_cons_self, h1l, h1r, htl]

/-- `remove` preserves the BST invariant. -/
theorem isBST_remove [LinearOrder α] {t : Tree α} (hb : isBST t = true) (v : α) :
    isBST (remove t v).2 = true := by
  rw [isBST_iff_pairwise, in_order_remove t hb v]
  exact List.Pairwise.filter _ ((isBST_iff_pairwise t).mp hb)

theorem isBST_applyOps [LinearOrder α] {t : Tree α} (hb : isBST t = true)
    (ops : List (Op α)) : isBST (applyOps t ops) = true := by
  induction ops generalizing t with
  | nil => exact hb
  | cons op ops ih =>
    cases op with
    | ins v => exact ih (isBST_insert hb v)
    | del v => exact ih (isBST_remove hb v)

theorem pre_order_perm_in_order (t : Tree α) :
    List.Perm (pre_order t) (in_order t) := by
  induction t with
  | nil => exact List.Perm.refl _
  | node d l r ihl ihr =>
    show List.Perm (d :: (pre_order l ++ pre_order r)) (in_order l ++ d :: in_order r)
    exact (List.Perm.cons d (ihl.append ihr)).trans List.perm_middle.symm

theorem post_order_perm_in_order (t : Tree α) :
    List.Perm (post_order t) (in_order t) := by
  induction t with
  | nil => exact List.Perm.refl _
  | node d l r ihl ihr =>
    show List.Perm (post_order l ++ post_order r ++ [d]) (in_order l ++ d :: in_order r)
    have s1 : List.Perm (post_order l ++ post_order r ++ [d])
        (in_order l ++ in_order r ++ [d]) := (ihl.append ihr).append_right [d]
    have s2 : List.Perm (in_order r ++ [d]) (d :: in_order r) :=
      List.perm_append_singleton d (in_order r)
    have s3 : List.Perm (in_order l ++ (in_order r ++ [d]))
        (in_order l ++ d :: in_order r) := List.Perm.append_left _ s2
    rw [← List.append_assoc] at s3
    exact s1.trans s3

theorem find_node_none_iff [LinearOrder α] (t : Tree α) (v : α) :
    (find_node t v = none ↔ contain t v = false) := by
  induction t with
  | nil => simp [find_node, contain]
  | node d l r ihl ihr =>
    by_cases h1 : v < d
    · simp [find_node, contain, h1, ihl]
    · by_cases h2 : d < v
      · simp [find_node, contain, h1, h2, ihr]
      · simp [find_node, contain, h1, h2]

theorem find_node_some [LinearOrder α] {t : Tree α} {v : α} {s : Tree α}
    (h : find_node t v = some s) :
    ∃ d' l' r', s = Tree.node d' l' r' ∧ ¬ d' < v ∧ ¬ v < d' := by
  induction t with
  | nil => simp [find_node] at h
  | node d l r ihl ihr =>
    by_cases h1 : v < d
    · exact ihl (by simpa [find_node, h1] using h)
    · by_cases h2 : d < v
      · exact ihr (by simpa [find_node, h1, h2] using h)
      · have hs : Tree.node d l r = s := by simpa [find_node, h1, h2] using h
        exact ⟨d, l, r, hs.symm, h2, h1⟩

/-! ### Concrete scenarios from the spec -/

/-- The tree of the spec's two-children deletion scenario:
insert 5, 3, 8, 1, 4, 7, 9 into an empty tree. -/
def exTree7 : Tree Nat := insertList Tree.nil [5, 3, 8, 1, 4, 7, 9]

/-- The tree of the spec's traversal scenario: insert 5, 3, 8, 1, 4. -/
def exTree5 : Tree Nat := insertList Tree.nil [5, 3, 8, 1, 4]

/-! ### The claims -/

/-- **C1**: for every finite sequence of insert and remove operations applied
to an initially empty tree, the resulting tree satisfies the BST invariant,
and `in_order()` on it yields a strictly ascending sequence with no
duplicates. -/
theorem claim_C1 {α : Type} [LinearOrder α] (ops : List (Op α)) :
    isBST (applyOps Tree.nil ops) = true
      ∧ List.Sorted (· < ·) (in_order (applyOps Tree.nil ops))
      ∧ (in_order (applyOps Tree.nil ops)).Nodup := by
  have hb : isBST (applyOps (Tree.nil : Tree α) ops) = true :=
    isBST_applyOps (by rfl) ops
  have hs : List.Pairwise (· < ·) (in_order (applyOps (Tree.nil : Tree α) ops)) :=
    (isBST_iff_pairwise _).mp hb
  exact ⟨hb, hs, hs.imp (fun h => ne_of_lt h)⟩

/-- **C2**: on a BST, removing the value of a node with two children copies
the value of the in-order successor (the minimum of the right subtree, i.e.
the first element of its in-order listing) into that node and removes the
successor value from the right subtree; the min node of the right subtree
has no left child, so that second removal meets the zero-or-one-child case.
In particular, after inserting 5,3,8,1,4,7,9 into an empty tree, remove(5)
returns true and `in_order()` yields [1,3,4,7,8,9]. -/
theorem claim_C2 {α : Type} [LinearOrder α] (d dl dr : α) (ll rl lr rr : Tree α)
    (hb : isBST (Tree.node d (Tree.node dl ll rl) (Tree.node dr lr rr)) = true) :
    remove (Tree.node d (Tree.node dl ll rl) (Tree.node dr lr rr)) d
        = (true, Tree.node (minFrom dr lr) (Tree.node dl ll rl)
            (remove (Tree.node dr lr rr) (minFrom dr lr)).2)
      ∧ (in_order (Tree.node dr lr rr)).head? = some (minFrom dr lr)
      ∧ (∃ rr', minNode (Tree.node dr lr rr)
          = Tree.node (minFrom dr lr) Tree.nil rr')
      ∧ (remove exTree7 5).1 = true
      ∧ in_order (remove exTree7 5).2 = [1, 3, 4, 7, 8, 9] := by
  refine ⟨remove_self_two d dl dr ll rl lr rr, head?_in_order dr lr rr,
    minNode_shape dr lr rr, by decide, by decide⟩

theorem claim_C2_witness :
    remove (Tree.node (5 : Nat) (Tree.node 3 Tree.nil Tree.nil)
        (Tree.node 8 (Tree.node 7 Tree.nil Tree.nil) (Tree.node 9 Tree.nil Tree.nil))) 5
        = (true, Tree.node (minFrom 8 (Tree.node 7 Tree.nil Tree.nil))
            (Tree.node 3 Tree.nil Tree.nil)
            (remove (Tree.node 8 (Tree.node 7 Tree.nil Tree.nil)
                (Tree.node 9 Tree.nil Tree.nil))
              (minFrom 8 (Tree.node 7 Tree.nil Tree.nil))).2)
      ∧ (in_order (Tree.node (8 : Nat) (Tree.node 7 Tree.nil Tree.nil)
            (Tree.node 9 Tree.nil Tree.nil))).head?
          = some (minFrom 8 (Tree.node 7 Tree.nil Tree.nil))
      ∧ (∃ rr', minNode (Tree.node (8 : Nat) (Tree.node 7 Tree.nil Tree.nil)
            (Tree.node 9 Tree.nil Tree.nil))
          = Tree.node (minFrom 8 (Tree.node 7 Tree.nil Tree.nil)) Tree.nil rr')
      ∧ (remove exTree7 5).1 = true
      ∧ in_order (remove exTree7 5).2 = [1, 3, 4, 7, 8, 9] :=
  claim_C2 5 3 8 Tree.nil Tree.nil (Tree.node 7 Tree.nil Tree.nil)
    (Tree.node 9 Tree.nil Tree.nil) (by decide)

/-- **C3**: on a BST, removing a present value returns true, the value is
absent from all three subsequent traversals, and every other stored value
remains present, in the same relative order in `in_order()` as before. -/
theorem claim_C3 {α : Type} [LinearOrder α] (t : Tree α) (v : α)
    (hb : isBST t = true) (hc : contain t v = true) :
    (remove t v).1 = true
      ∧ v ∉ in_order (remove t v).2
      ∧ v ∉ pre_order (remove t v).2
      ∧ v ∉ post_order (remove t v).2
      ∧ in_order (remove t v).2 = (in_order t).filter (fun x => decide (x ≠ v)) := by
  have hio := in_order_remove t hb v
  have hnotin : v ∉ in_order (remove t v).2 := by
    rw [hio]
    intro hmem
    have := List.of_mem_filter hmem
    simp at this
  refine ⟨remove_fst_of_contain hc, hnotin, ?_, ?_, hio⟩
  · intro hmem
    exact hnotin ((pre_order_perm_in_order _).mem_iff.mp hmem)
  · intro hmem
    exact hnotin ((post_order_perm_in_order _).mem_iff.mp hmem)

theorem claim_C3_witness :
    (remove exTree5 3).1 = true
      ∧ 3 ∉ in_order (remove exTree5 3).2
      ∧ 3 ∉ pre_order (remove exTree5 3).2
      ∧ 3 ∉ post_order (remove exTree5 3).2
      ∧ in_order (remove exTree5 3).2
          = (in_order exTree5).filter (fun x => decide (x ≠ 3)) :=
  claim_C3 exTree5 3 (by decide) (by decide)

/-- **C4**: inserting a value comparison-equal to a stored value (neither
`v < x` nor `x < v`) returns false and leaves the tree unchanged. -/
theorem claim_C4 {α : Type} [LinearOrder α] (t : Tree α) (v x : α)
    (hb : isBST t = true) (hx : x ∈ in_order t)
    (h1 : ¬ v < x) (h2 : ¬ x < v) :
    insert t v = (false, t) := by
  have hvx : v = x := le_antisymm (not_lt.mp h2) (not_lt.mp h1)
  subst hvx
  exact insert_of_contain ((contain_iff_mem hb v).mpr hx)

theorem claim_C4_witness : insert exTree5 3 = (false, exTree5) :=
  claim_C4 exTree5 3 3 (by decide) (by decide) (by decide) (by decide)

/-- **C5**: removing a value comparison-equal to no stored value returns
false and leaves the tree (hence its `in_order()` output) unchanged; on an
empty tree both `contain` and `remove` return false for every value. -/
theorem claim_C5 {α : Type} [LinearOrder α] (t : Tree α) (v : α)
    (hb : isBST t = true)
    (h : ∀ x ∈ in_order t, v < x ∨ x < v) :
    remove t v = (false, t)
      ∧ in_order (remove t v).2 = in_order t
      ∧ (∀ w : α, contain Tree.nil w = false ∧ (remove (Tree.nil : Tree α) w).1 = false) := by
  have hc : contain t v = false := by
    cases hcv : contain t v with
    | false => rfl
    | true =>
      have hv := (contain_iff_mem hb v).mp hcv
      rcases h v hv with h' | h' <;> exact absurd h' (lt_irrefl v)
  have hrm := remove_of_not_contain hc
  exact ⟨hrm, by rw [hrm], fun w => ⟨rfl, rfl⟩⟩

theorem claim_C5_witness :
    remove exTree5 6 = (false, exTree5)
      ∧ in_order (remove exTree5 6).2 = in_order exTree5
      ∧ (∀ w : Nat, contain Tree.nil w = false
          ∧ (remove (Tree.nil : Tree Nat) w).1 = false) :=
  claim_C5 exTree5 6 (by decide) (by decide)

/-- **C6**: inserting a value not previously present returns true, makes the
in-order listing gain exactly that one element (a permutation of the old
listing plus `v`, one longer), preserves the BST invariant, and a
subsequent `contain` of that value returns true. -/
theorem claim_C6 {α : Type} [LinearOrder α] (t : Tree α) (v : α)
    (hb : isBST t = true) (hnot : v ∉ in_order t) :
    (insert t v).1 = true
      ∧ List.Perm (in_order (insert t v).2) (v :: in_order t)
      ∧ (in_order (insert t v).2).length = (in_order t).length + 1
      ∧ isBST (insert t v).2 = true
      ∧ contain (insert t v).2 v = true := by
  have hc : contain t v = false := by
    cases hcv : contain t v with
    | false => rfl
    | true => exact absurd ((contain_iff_mem hb v).mp hcv) hnot
  have hperm := in_order_insert_perm hc
  have hbst := isBST_insert hb v
  refine ⟨insert_fst_of_not_contain hc, hperm, ?_, hbst, ?_⟩
  · rw [hperm.length_eq]
    rfl
  · exact (contain_iff_mem hbst v).mpr (hperm.mem_iff.mpr (List.mem_cons_self v _))

theorem claim_C6_witness :
    (insert exTree5 6).1 = true
      ∧ List.Perm (in_order (insert exTree5 6).2) (6 :: in_order exTree5)
      ∧ (in_order (insert exTree5 6).2).length = (in_order exTree5).length + 1
      ∧ isBST (insert exTree5 6).2 = true
      ∧ contain (insert exTree5 6).2 6 = true :=
  claim_C6 exTree5 6 (by decide) (by decide)

/-- **C7**: on any non-empty tree the first element of `pre_order()` is the
root's value and the last element of `post_order()` is the root's value; in
particular inserting 5,3,8,1,4 gives `in_order()` = [1,3,4,5,8],
`pre_order()` = [5,3,1,4,8] and `post_order()` = [1,4,3,8,5]. -/
theorem claim_C7 {α : Type} (d : α) (l r : Tree α) :
    (pre_order (Tree.node d l r)).head? = some d
      ∧ (post_order (Tree.node d l r)).getLast? = some d
      ∧ in_order exTree5 = [1, 3, 4, 5, 8]
      ∧ pre_order exTree5 = [5, 3, 1, 4, 8]
      ∧ post_order exTree5 = [1, 4, 3, 8, 5] := by
  refine ⟨rfl, ?_, by decide, by decide, by decide⟩
  show (post_order l ++ post_order r ++ [d]).getLast? = some d
  exact List.getLast?_concat _

/-- **C8**: `find_node` returns an absent handle exactly when `contain`
returns false, and otherwise a handle to a node whose stored value is
comparison-equal to the searched value (neither less nor greater). -/
theorem claim_C8 {α : Type} [LinearOrder α] (t : Tree α) (v : α)
    (hb : isBST t = true) :
    (find_node t v = none ↔ contain t v = false)
      ∧ (∀ s, find_node t v = some s →
          ∃ d' l' r', s = Tree.node d' l' r' ∧ ¬ d' < v ∧ ¬ v < d') :=
  ⟨find_node_none_iff t v, fun _ h => find_node_some h⟩

theorem claim_C8_witness :
    (find_node exTree5 4 = none ↔ contain exTree5 4 = false)
      ∧ (∀ s, find_node exTree5 4 = some s →
          ∃ d' l' r', s = Tree.node d' l' r' ∧ ¬ d' < 4 ∧ ¬ (4 : Nat) < d') :=
  claim_C8 exTree5 4 (by decide)

/-- **C9**: the three traversals of any tree are permutations of one
another: same length, same multiset of stored values. -/
theorem claim_C9 {α : Type} (t : Tree α) :
    List.Perm (pre_order t) (in_order t)
      ∧ List.Perm (post_order t) (in_order t)
      ∧ (pre_order t).length = (in_order t).length
      ∧ (post_order t).length = (in_order t).length :=
  ⟨pre_order_perm_in_order t, post_order_perm_in_order t,
    (pre_order_perm_in_order t).length_eq, (post_order_perm_in_order t).length_eq⟩

/-- **C10**: on an empty tree each traversal returns the empty sequence. -/
theorem claim_C10 (α : Type) :
    in_order (Tree.nil : Tree α) = []
      ∧ pre_order (Tree.nil : Tree α) = []
      ∧ post_order (Tree.nil : Tree α) = [] :=
  ⟨rfl, rfl, rfl⟩

end BSTSpec
